import Mathlib

/-!
Verification of the ClusterApp block-diagram generator
(scripts/generate-clusterapp-block-diagram.py).

The script's core is embedded shallowly: identifiers are lists of
characters, the apps dictionary and the dependents dictionary are
association lists preserving insertion order, and the breadth-first
chain traversal is written with explicit fuel (a bound proved
sufficient below).
-/

namespace BD

/-- Identifiers (Python strings) are modelled as lists of characters. -/
abbrev Id := List Char

/-- Convert a string literal to the identifier representation. -/
def toL (s : String) : Id := s.toList

/-- Python `str.strip` whitespace set (ASCII part). -/
def isPySpace (c : Char) : Bool :=
  c == ' ' || c == '\t' || c == '\n' || c == '\r' || c == '\x0b' || c == '\x0c'

/-- Python `str.strip`: drop leading and trailing whitespace. -/
def pyStrip (s : Id) : Id :=
  ((s.dropWhile isPySpace).reverse.dropWhile isPySpace).reverse

/-- Python `str.split(sep)` for a single-character separator: splits at
every occurrence, keeping empty fields. -/
def splitOnChar (sep : Char) : List Char → List (List Char)
  | [] => [[]]
  | c :: rest =>
    let r := splitOnChar sep rest
    if c = sep then [] :: r
    else
      match r with
      | h :: t => (c :: h) :: t
      | [] => [[c]]

/-- Lexicographic comparison of identifiers by code point, mirroring
Python string `<=`. -/
def strLeB : List Char → List Char → Bool
  | [], _ => true
  | _ :: _, [] => false
  | a :: as, b :: bs =>
    if a.toNat < b.toNat then true
    else if b.toNat < a.toNat then false
    else strLeB as bs

/-- Insert into a list sorted by `strLeB`. -/
def insertSorted (x : Id) : List Id → List Id
  | [] => [x]
  | y :: ys => if strLeB x y then x :: y :: ys else y :: insertSorted x ys

/-- Python `sorted` on identifiers (insertion sort, ascending). -/
def sortStr : List Id → List Id
  | [] => []
  | x :: xs => insertSorted x (sortStr xs)

/-- Consume one or more digits; `none` when the input does not start
with a digit, otherwise the rest after the maximal digit run. -/
def dropDigits1 : List Char → Option (List Char)
  | [] => none
  | c :: rest => if c.isDigit then some (rest.dropWhile Char.isDigit) else none

/-- Third stage of the pattern `-\d+\.\d+\.\d+`: at least one digit
remains (the trailing `.*$` then always matches). -/
def versionAt3 (r3 : List Char) : Bool :=
  match r3 with
  | c :: _ => c.isDigit
  | [] => false

/-- Second stage: a digit run, a dot, then the third stage. -/
def versionAt2 (r2 : List Char) : Bool :=
  match dropDigits1 r2 with
  | some ('.' :: r3) => versionAt3 r3
  | _ => false

/-- Does the regex `-\d+\.\d+\.\d+.*$` match at the head of `s`?
Backtracking cannot split a digit run before a literal dot, so the
greedy staged parse is exact. -/
def versionAt (s : List Char) : Bool :=
  match s with
  | '-' :: r1 =>
    match dropDigits1 r1 with
    | some ('.' :: r2) => versionAt2 r2
    | _ => false
  | _ => false

/-- The normalizer `get_base_name`: remove everything from the leftmost match of
`-\d+\.\d+\.\d+.*$` onwards (Python `re.sub` with that pattern and an
empty replacement); identity when the pattern does not occur. -/
def get_base_name : List Char → List Char
  | [] => []
  | c :: rest => if versionAt (c :: rest) then [] else c :: get_base_name rest

/-- Association lists from identifier to a list of identifiers, used
for both the `apps` dict and the `dependents` dict; insertion order is
preserved, matching Python dict semantics. -/
abbrev AList := List (Id × List Id)

/-- Dictionary lookup with default `[]` (`apps.get(k, [])` /
`dependents.get(k, [])`). -/
def lookupA (m : AList) (k : Id) : List Id :=
  match m with
  | [] => []
  | (k0, v) :: rest => if k0 = k then v else lookupA rest k

/-- The keys of a dictionary, in insertion order. -/
def keysOf (m : AList) : List Id := m.map Prod.fst

/-- Dictionary assignment `m[k] = v`: overwrite in place when the key
exists (keeping its position), append otherwise. -/
def upsert (m : AList) (k : Id) (v : List Id) : AList :=
  match m with
  | [] => [(k, v)]
  | (k0, v0) :: rest =>
    if k0 = k then (k0, v) :: rest else (k0, v0) :: upsert rest k v

/-- The update `dependents[e].add(name)`: defaultdict-of-set insertion — create
the key if absent, add `name` to its set if not already present. -/
def addChild (dm : AList) (e name : Id) : AList :=
  match dm with
  | [] => [(e, [name])]
  | (k0, v0) :: rest =>
    if k0 = e then (k0, if name ∈ v0 then v0 else v0 ++ [name]) :: rest
    else (k0, v0) :: addChild rest e name

/-- The matching test of the resolution loop: candidate `e` matches
reference `dep` when `get_base_name(e) == dep or e == dep`. -/
def isMatch (dep e : Id) : Bool := get_base_name e == dep || e == dep

/-- The inner resolution loop (`for existing_app in apps.keys(): ...
break`): scan candidates in registration order, and on the first match
add `name` to the candidate's dependents set and stop. -/
def resolveDep (dm : AList) (keys : List Id) (name dep : Id) : AList :=
  match keys with
  | [] => dm
  | e :: rest =>
    if isMatch dep e then addChild dm e name else resolveDep dm rest name dep

/-- The literal `"N/A"` marker. -/
def naMarker : Id := toL "N/A"

/-- Parse the dependency text of one record: split on commas, strip
each token, drop empty tokens. -/
def splitDeps (deps_str : Id) : List Id :=
  ((splitOnChar ',' deps_str).map pyStrip).filter (fun d => !d.isEmpty)

/-- One iteration of the parsing loop of `parse_clusterapps`, acting on
the state `(apps, dependents)`. -/
def parseStep (st : AList × AList) (line : Id) : AList × AList :=
  let s := pyStrip line
  if s.isEmpty then st
  else
    match splitOnChar '|' s with
    | p0 :: p1 :: _ =>
      let name := pyStrip p0
      let deps_str := pyStrip p1
      let apps1 := upsert st.1 name []
      if deps_str ≠ [] ∧ deps_str ≠ naMarker then
        let deps := splitDeps deps_str
        let apps2 := upsert apps1 name deps
        let dm := deps.foldl (fun dm dep => resolveDep dm (keysOf apps2) name dep) st.2
        (apps2, dm)
      else (apps1, st.2)
    | _ => st

/-- Sort every dependents set (`{k: sorted(v) for k, v in
dependents.items()}`). -/
def finalizeDM (dm : AList) : AList := dm.map (fun kv => (kv.1, sortStr kv.2))

/-- The parser `parse_clusterapps`: fold the parsing loop over the input lines and
sort the dependents sets. -/
def parse_clusterapps (lines : List Id) : AList × AList :=
  let st := lines.foldl parseStep ([], [])
  (st.1, finalizeDM st.2)

/-- The root finder `find_roots`: the sorted list of apps whose dependency list is
empty. -/
def find_roots (apps : AList) : List Id :=
  sortStr ((apps.filter (fun kv => kv.2.isEmpty)).map Prod.fst)

/-- Enqueue the children of a freshly processed node: append each child
that is neither processed nor already queued. -/
def enqueueChildren (processed1 : List Id) (q0 : List Id) (children : List Id) : List Id :=
  children.foldl (fun q c => if c ∈ processed1 ∨ c ∈ q then q else q ++ [c]) q0

/-- The BFS loop of `create_block_diagram`, with explicit fuel: dequeue
a node, skip it when already processed, otherwise mark it processed,
append it to the chain and enqueue its unseen children. -/
def bfsAux (dm : AList) : Nat → List Id → List Id → List Id → List Id × List Id
  | 0, _, processed, chain => (chain, processed)
  | _ + 1, [], processed, chain => (chain, processed)
  | fuel + 1, n :: rest, processed, chain =>
    if n ∈ processed then bfsAux dm fuel rest processed chain
    else bfsAux dm fuel (enqueueChildren (n :: processed) rest (lookupA dm n))
      (n :: processed) (chain ++ [n])

/-- Fuel that provably suffices for the BFS loop (shown below). -/
def bfsFuel (apps : AList) : Nat := apps.length * (apps.length + 1) + 2

/-- One chain per root, threading the global `processed` set through
all roots in order. -/
def chainsOf (apps dm : AList) : List (List Id) × List Id :=
  (find_roots apps).foldl
    (fun a root =>
      (a.1 ++ [(bfsAux dm (bfsFuel apps) [root] a.2 []).1],
        (bfsAux dm (bfsFuel apps) [root] a.2 []).2))
    ([], [])

/-- The orphan remainder: registered apps never processed, sorted
(`sorted(set(apps.keys()) - processed)`). -/
def remainderOf (apps : AList) (processed : List Id) : List Id :=
  sortStr ((keysOf apps).filter (fun k => decide (k ∉ processed)))

/-- Decimal rendering of a natural number, for the chain headers. -/
def natToStr (n : Nat) : Id := Nat.toDigits 10 n

/-- Python `sep.join(parts)`. -/
def joinSep (sep : Id) : List Id → Id
  | [] => []
  | [x] => x
  | x :: y :: xs => x ++ sep ++ joinSep sep (y :: xs)

/-- The content line of a root box: identifier plus the `[ROOT]`
annotation, padded to the box width. -/
def rootLine (display : Id) (width : Nat) : Id :=
  toL "│ " ++ display ++ toL " [ROOT]" ++
    List.replicate (width - display.length - 8) ' ' ++ toL "│"

/-- The content line of a non-root box: identifier padded to the box
width. -/
def plainLine (display : Id) (width : Nat) : Id :=
  toL "│ " ++ display ++ List.replicate (width - display.length - 4) ' ' ++ toL "│"

/-- Top border of a box. -/
def borderTop (width : Nat) : Id :=
  toL "┌─" ++ List.replicate (width - 4) '─' ++ toL "─┐"

/-- Bottom border of a box. -/
def borderBot (width : Nat) : Id :=
  toL "└─" ++ List.replicate (width - 4) '─' ++ toL "─┘"

/-- The fixed line emitted when an app has no dependents. -/
def noDependentsLine : Id := toL "    └─ (no dependents)"

/-- The per-child connector lines: branch connector for all but the
last child, terminal connector for the last. -/
def childConnectors (children : List Id) : List Id :=
  children.enum.map (fun ic =>
    (if ic.1 < children.length - 1 then toL "      ├─" else toL "      └─") ++
      [' '] ++ ic.2.take 55)

/-- The block renderer `draw_app_block`: the parents section (when dependencies exist),
the fixed-width box (annotated `[ROOT]` when there are none), and the
children section (or the no-dependents line). -/
def draw_app_block (apps dm : AList) (app_name : Id) : List Id :=
  let deps := lookupA apps app_name
  let children := lookupA dm app_name
  let parentsSec : List Id :=
    if deps.isEmpty then []
    else
      [toL "    ┌─ Parents (depends on): " ++
          joinSep (toL ", ") (deps.map (List.take 30)),
        toL "    │", toL "    ▼"]
  let display := app_name.take 60
  let width := max (display.length + 4) 50
  let mid := if deps.isEmpty then rootLine display width else plainLine display width
  let childSec : List Id :=
    if children.isEmpty then [noDependentsLine]
    else
      [toL "    │", toL "    ▼", toL "    └─ Children (used by):"] ++
        childConnectors children
  parentsSec ++ [borderTop width, mid, borderBot width] ++ childSec

/-- The section emitted for one root chain: separator (for all but the
first), header, and one block plus blank line per chain member. -/
def rootSection (apps dm : AList) (idx : Nat) (root : Id) (chain : List Id) : List Id :=
  (if idx > 0 then [[], List.replicate 80 '─', []] else []) ++
    [toL "### Root Chain " ++ natToStr (idx + 1) ++ toL ": " ++ root, []] ++
    (chain.map (fun app => draw_app_block apps dm app ++ [[]])).flatten

/-- All root-chain sections, in root order. -/
def rootSections (apps dm : AList) : Nat → List Id → List (List Id) → List Id
  | _, [], _ => []
  | _, _ :: _, [] => []
  | idx, r :: rs, ch :: chs =>
    rootSection apps dm idx r ch ++ rootSections apps dm (idx + 1) rs chs

/-- The assembler `create_block_diagram`: header, one section per root chain, the
orphan section when any app was unreached, and the closing fence; the
lines are joined with newlines. -/
def create_block_diagram (apps dm : AList) : Id :=
  let header : List Id :=
    [toL "# ClusterApp Dependency Block Diagram", [],
      toL "This diagram shows each ClusterApp once as a block with its dependencies (parents) and dependents (children).",
      toL "Root nodes (apps with no dependencies) are shown at the top of each chain.",
      [], toL "## Block Diagram", [], toL "```", []]
  let roots := find_roots apps
  let cr := chainsOf apps dm
  let remaining := remainderOf apps cr.2
  let remSec : List Id :=
    if remaining.isEmpty then []
    else
      [[], List.replicate 80 '─', [],
          toL "### Orphaned Apps (not connected to any root)", []] ++
        (remaining.map (fun app => draw_app_block apps dm app ++ [[]])).flatten
  joinSep ['\n'] (header ++ rootSections apps dm 0 roots cr.1 ++ remSec ++ [toL "```", []])

/-- The whole pipeline from input lines to diagram text. -/
def generateDiagram (lines : List Id) : Id :=
  let ps := parse_clusterapps lines
  create_block_diagram ps.1 ps.2

/-- The ascending order used by the Python `sorted` calls, as a
relation. -/
def strLe (a b : Id) : Prop := strLeB a b = true

/-! ### Lemmas about the sorting helper -/

theorem perm_insertSorted (x : Id) (l : List Id) :
    List.Perm (insertSorted x l) (x :: l) := by
  induction l with
  | nil => simp [insertSorted]
  | cons y ys ih =>
    by_cases h : strLeB x y = true
    · simp [insertSorted, h]
    · simp only [insertSorted, h, if_false, Bool.false_eq_true]
      exact (List.Perm.cons y ih).trans (List.Perm.swap x y ys)

theorem perm_sortStr (l : List Id) : List.Perm (sortStr l) l := by
  induction l with
  | nil => simp [sortStr]
  | cons x xs ih =>
    exact (perm_insertSorted x (sortStr xs)).trans (List.Perm.cons x ih)

theorem mem_sortStr {x : Id} {l : List Id} : x ∈ sortStr l ↔ x ∈ l :=
  (perm_sortStr l).mem_iff

theorem nodup_sortStr {l : List Id} (h : l.Nodup) : (sortStr l).Nodup :=
  (perm_sortStr l).nodup_iff.mpr h

theorem strLeB_total (a b : Id) : strLeB a b = true ∨ strLeB b a = true := by
  induction a generalizing b with
  | nil => left; rfl
  | cons x xs ih =>
    cases b with
    | nil => right; rfl
    | cons y ys =>
      rcases Nat.lt_trichotomy x.toNat y.toNat with h | h | h
      · left; simp [strLeB, h]
      · have hxy : ¬ x.toNat < y.toNat := by omega
        have hyx : ¬ y.toNat < x.toNat := by omega
        rcases ih ys with hc | hc
        · left; simp [strLeB, hxy, hyx, hc]
        · right; simp [strLeB, hxy, hyx, hc]
      · right; simp [strLeB, h]

theorem mem_insertSorted {z x : Id} {l : List Id} :
    z ∈ insertSorted x l ↔ z = x ∨ z ∈ l := by
  have := (perm_insertSorted x l).mem_iff (a := z)
  simpa using this

theorem strLeB_cons_iff (x y : Char) (xs ys : List Char) :
    strLeB (x :: xs) (y :: ys) = true ↔
      x.toNat < y.toNat ∨ (x.toNat = y.toNat ∧ strLeB xs ys = true) := by
  by_cases h1 : x.toNat < y.toNat
  · simp [strLeB, h1]
  · by_cases h2 : y.toNat < x.toNat
    · simp [strLeB, h1, h2]; omega
    · have : x.toNat = y.toNat := by omega
      simp [strLeB, h1, h2, this]

theorem strLeB_trans {a b c : Id} (hab : strLeB a b = true)
    (hbc : strLeB b c = true) : strLeB a c = true := by
  induction a generalizing b c with
  | nil => rfl
  | cons x xs ih =>
    cases b with
    | nil => exact absurd hab (by simp [strLeB])
    | cons y ys =>
      cases c with
      | nil => exact absurd hbc (by simp [strLeB])
      | cons z zs =>
        rcases (strLeB_cons_iff x y xs ys).mp hab with h1 | ⟨h1, h1r⟩ <;>
          rcases (strLeB_cons_iff y z ys zs).mp hbc with h2 | ⟨h2, h2r⟩
        · exact (strLeB_cons_iff x z xs zs).mpr (Or.inl (by omega))
        · exact (strLeB_cons_iff x z xs zs).mpr (Or.inl (by omega))
        · exact (strLeB_cons_iff x z xs zs).mpr (Or.inl (by omega))
        · exact (strLeB_cons_iff x z xs zs).mpr (Or.inr ⟨by omega, ih h1r h2r⟩)

theorem pairwise_insertSorted {x : Id} {l : List Id}
    (h : l.Pairwise strLe) : (insertSorted x l).Pairwise strLe := by
  induction l with
  | nil => simp [insertSorted, strLe]
  | cons y ys ih =>
    rcases List.pairwise_cons.mp h with ⟨hy, hys⟩
    by_cases hxy : strLeB x y = true
    · simp only [insertSorted, if_pos hxy]
      refine List.pairwise_cons.mpr ⟨?_, h⟩
      intro z hz
      rcases List.mem_cons.mp hz with rfl | hz2
      · exact hxy
      · exact strLeB_trans hxy (hy z hz2)
    · simp only [insertSorted, if_neg hxy]
      refine List.pairwise_cons.mpr ⟨?_, ih hys⟩
      intro z hz
      rcases mem_insertSorted.mp hz with hzx | hz2
      · rw [hzx]
        rcases strLeB_total x y with h2 | h2
        · exact absurd h2 hxy
        · exact h2
      · exact hy z hz2

theorem sortStr_pairwise (l : List Id) : (sortStr l).Pairwise strLe := by
  induction l with
  | nil => simp [sortStr]
  | cons x xs ih => exact pairwise_insertSorted ih

/-! ### Small structural lemmas about the parser state -/

theorem lookupA_finalizeDM (dm : AList) (p : Id) :
    lookupA (finalizeDM dm) p = sortStr (lookupA dm p) := by
  induction dm with
  | nil => simp [finalizeDM, lookupA, sortStr]
  | cons kv rest ih =>
    rcases kv with ⟨k0, v0⟩
    by_cases h : k0 = p
    · simp [finalizeDM, lookupA, h]
    · show lookupA ((k0, sortStr v0) :: finalizeDM rest) p = _
      rw [lookupA, if_neg h, ih, lookupA, if_neg h]

theorem parseStep_skip {line : Id}
    (h : (splitOnChar '|' (pyStrip line)).length < 2) (st : AList × AList) :
    parseStep st line = st := by
  unfold parseStep
  by_cases he : (pyStrip line).isEmpty
  · simp [he]
  · simp only [he, if_false, Bool.false_eq_true]
    match hs : splitOnChar '|' (pyStrip line) with
    | [] => rfl
    | [p0] => rfl
    | p0 :: p1 :: rest => rw [hs] at h; simp at h; omega

/-! ### The name normalizer versus the declarative suffix pattern -/

/-- All characters are ASCII digits. -/
def allDigits (l : List Char) : Prop := ∀ c ∈ l, c.isDigit = true

/-- The spec's version pattern, stated declaratively: a dash, a
non-empty digit run, a dot, a non-empty digit run, a dot, at least one
digit, then arbitrary trailing characters. -/
def specVersionAt (s : List Char) : Prop :=
  ∃ a b c rest, a ≠ [] ∧ b ≠ [] ∧ c ≠ [] ∧
    allDigits a ∧ allDigits b ∧ allDigits c ∧
    s = '-' :: (a ++ '.' :: (b ++ '.' :: (c ++ rest)))

theorem dropWhile_digits_dot (t : List Char) :
    ∀ a : List Char, allDigits a →
      (a ++ '.' :: t).dropWhile Char.isDigit = '.' :: t := by
  intro a ha
  induction a with
  | nil => simp [List.dropWhile]
  | cons c a' ih =>
    have hc : c.isDigit = true := ha c (List.mem_cons_self c a')
    have ha' : allDigits a' := fun d hd => ha d (List.mem_cons_of_mem c hd)
    simp [List.dropWhile, hc, ih ha']

theorem dropDigits1_of_digits {a : List Char} (t : List Char)
    (h0 : a ≠ []) (hd : allDigits a) :
    dropDigits1 (a ++ '.' :: t) = some ('.' :: t) := by
  cases a with
  | nil => exact absurd rfl h0
  | cons c a' =>
    have hc : c.isDigit = true := hd c (List.mem_cons_self c a')
    have ha' : allDigits a' := fun d hdm => hd d (List.mem_cons_of_mem c hdm)
    simp [dropDigits1, hc, dropWhile_digits_dot t a' ha']

theorem dropDigits1_some {r t : List Char} (h : dropDigits1 r = some t) :
    ∃ a, a ≠ [] ∧ allDigits a ∧ r = a ++ t := by
  cases r with
  | nil => simp [dropDigits1] at h
  | cons c rest =>
    by_cases hc : c.isDigit = true
    · refine ⟨c :: rest.takeWhile Char.isDigit, by simp, ?_, ?_⟩
      · intro d hd
        rcases List.mem_cons.mp hd with rfl | hd2
        · exact hc
        · exact List.mem_takeWhile_imp hd2
      · have ht : t = rest.dropWhile Char.isDigit := by
          simp [dropDigits1, hc] at h; exact h.symm
        rw [ht]
        simp [List.takeWhile_append_dropWhile]
    · simp [dropDigits1, hc] at h

theorem versionAt_dash (r1 : List Char) :
    versionAt ('-' :: r1) =
      match dropDigits1 r1 with
      | some ('.' :: r2) => versionAt2 r2
      | _ => false := rfl

theorem versionAt_iff (s : List Char) : versionAt s = true ↔ specVersionAt s := by
  constructor
  · intro h
    unfold versionAt at h
    split at h
    case h_2 => exact absurd h (by simp)
    case h_1 r1 =>
      split at h
      case h_2 => exact absurd h (by simp)
      case h_1 r2 hd1 =>
        unfold versionAt2 at h
        split at h
        case h_2 => exact absurd h (by simp)
        case h_1 r3 hd2 =>
          unfold versionAt3 at h
          split at h
          case h_2 => exact absurd h (by simp)
          case h_1 c3 r4 =>
            rcases dropDigits1_some hd1 with ⟨a, ha0, haD, hra⟩
            rcases dropDigits1_some hd2 with ⟨b, hb0, hbD, hrb⟩
            refine ⟨a, b, [c3], r4, ha0, hb0, by simp, haD, hbD, ?_, ?_⟩
            · intro d hd
              rcases List.mem_cons.mp hd with rfl | hd2
              · exact h
              · simp at hd2
            · rw [hra, hrb]
              simp
  · rintro ⟨a, b, c, rest, ha0, hb0, hc0, haD, hbD, hcD, rfl⟩
    rw [versionAt_dash, dropDigits1_of_digits _ ha0 haD]
    show versionAt2 (b ++ '.' :: (c ++ rest)) = true
    unfold versionAt2
    rw [dropDigits1_of_digits _ hb0 hbD]
    show versionAt3 (c ++ rest) = true
    cases c with
    | nil => exact absurd rfl hc0
    | cons c0 c' =>
      show versionAt3 (c0 :: (c' ++ rest)) = true
      show c0.isDigit = true
      exact hcD c0 (List.mem_cons_self c0 c')

theorem specVersionAt_not_nil : ¬ specVersionAt [] := by
  rintro ⟨a, b, c, rest, -, -, -, -, -, -, h⟩
  simp at h

/-! ### The resolution loop and its first-match behaviour -/

theorem lookupA_addChild (dm : AList) (e name p : Id) :
    lookupA (addChild dm e name) p =
      if e = p then
        (if name ∈ lookupA dm e then lookupA dm e else lookupA dm e ++ [name])
      else lookupA dm p := by
  induction dm with
  | nil =>
    by_cases h : e = p <;> simp [addChild, lookupA, h]
  | cons kv rest ih =>
    rcases kv with ⟨k0, v0⟩
    by_cases hk : k0 = e
    · subst hk
      by_cases hp : k0 = p
      · subst hp
        simp [addChild, lookupA]
      · have : ¬ k0 = p := hp
        simp [addChild, lookupA, this]
    · by_cases hp : k0 = p
      · subst hp
        have hep : ¬ e = k0 := fun h2 => hk h2.symm
        simp [addChild, lookupA, hk, hep]
      · simp only [addChild, if_neg hk, lookupA, if_neg hp]
        rw [ih]

theorem mem_lookupA_addChild {dm : AList} {e name p c : Id} :
    c ∈ lookupA (addChild dm e name) p ↔
      c ∈ lookupA dm p ∨ (c = name ∧ p = e) := by
  rw [lookupA_addChild]
  by_cases hep : e = p
  · subst hep
    by_cases hm : name ∈ lookupA dm e
    · rw [if_pos rfl, if_pos hm]
      constructor
      · exact fun h => Or.inl h
      · rintro (h | ⟨rfl, -⟩)
        · exact h
        · exact hm
    · rw [if_pos rfl, if_neg hm, List.mem_append, List.mem_singleton]
      constructor
      · rintro (h | h)
        · exact Or.inl h
        · exact Or.inr ⟨h, rfl⟩
      · rintro (h | ⟨rfl, -⟩)
        · exact Or.inl h
        · exact Or.inr rfl
  · have hpe : ¬ p = e := fun h => hep h.symm
    rw [if_neg hep]
    simp [hpe]

theorem resolveDep_eq_find (dm : AList) (keys : List Id) (name dep : Id) :
    resolveDep dm keys name dep =
      match keys.find? (isMatch dep) with
      | some e => addChild dm e name
      | none => dm := by
  induction keys with
  | nil => rfl
  | cons e rest ih =>
    by_cases h : isMatch dep e = true
    · rw [resolveDep, if_pos h, List.find?_cons_of_pos _ h]
    · rw [resolveDep, if_neg h, List.find?_cons_of_neg _ (by simp [h]), ih]

theorem find?_eq_some_split {p : Id → Bool} {l : List Id} {e : Id}
    (h : l.find? p = some e) :
    p e = true ∧ ∃ l1 l2, l = l1 ++ e :: l2 ∧ ∀ x ∈ l1, p x = false := by
  induction l with
  | nil => simp [List.find?] at h
  | cons x rest ih =>
    by_cases hx : p x = true
    · rw [List.find?_cons_of_pos _ hx] at h
      cases h
      exact ⟨hx, [], rest, rfl, by simp⟩
    · rw [List.find?_cons_of_neg _ (by simp [hx])] at h
      rcases ih h with ⟨hp, l1, l2, rfl, hall⟩
      refine ⟨hp, x :: l1, l2, rfl, ?_⟩
      intro y hy
      rcases List.mem_cons.mp hy with rfl | hy2
      · simpa using hx
      · exact hall y hy2

/-! ### The children map as the inverse of the implied edges -/

/-- A record line the parser accepts: non-blank and at least two
`|`-separated fields. -/
def validLine (l : Id) : Prop :=
  pyStrip l ≠ [] ∧ 2 ≤ (splitOnChar '|' (pyStrip l)).length

/-- The identifier field of a record line. -/
def lineName (l : Id) : Id :=
  match splitOnChar '|' (pyStrip l) with
  | p0 :: _ => pyStrip p0
  | [] => []

/-- The dependency-text field of a record line. -/
def lineDepsStr (l : Id) : Id :=
  match splitOnChar '|' (pyStrip l) with
  | _ :: p1 :: _ => pyStrip p1
  | _ => []

/-- The dependency references of a record line: empty when the text is
blank or the `N/A` marker. -/
def lineDeps (l : Id) : List Id :=
  if lineDepsStr l ≠ [] ∧ lineDepsStr l ≠ naMarker then splitDeps (lineDepsStr l) else []

/-- The apps component of one parsing step (it does not depend on the
dependents component). -/
def appsStep (apps : AList) (line : Id) : AList := (parseStep (apps, []) line).1

/-- The apps dictionary after parsing a list of lines on top of
`apps0`. -/
def parseApps (apps0 : AList) (lines : List Id) : AList := lines.foldl appsStep apps0

/-- Following the spec's description of resolution: starting from the
registered dictionary `apps0`, the record sequence `lines` implies the
edge `(c, p)` when some record has identifier `c` and one of its
dependency references resolves — by first match over the identifiers
registered up to and including that record — to `p`. -/
def specEdgeFrom (apps0 : AList) (lines : List Id) (c p : Id) : Prop :=
  ∃ pre l post, lines = pre ++ l :: post ∧ validLine l ∧ lineName l = c ∧
    ∃ dep ∈ lineDeps l,
      (keysOf (parseApps apps0 (pre ++ [l]))).find? (isMatch dep) = some p

/-- The edges implied by a record sequence, from an empty initial
dictionary. -/
def specImpliedEdge (lines : List Id) (c p : Id) : Prop := specEdgeFrom [] lines c p

theorem parseStep_fst (st : AList × AList) (line : Id) :
    (parseStep st line).1 = appsStep st.1 line := by
  unfold appsStep parseStep
  by_cases he : (pyStrip line).isEmpty
  · simp [he]
  · simp only [he, Bool.false_eq_true, if_false]
    cases hs : splitOnChar '|' (pyStrip line) with
    | nil => rfl
    | cons p0 t =>
      cases t with
      | nil => rfl
      | cons p1 rest =>
        by_cases hd : pyStrip p1 ≠ [] ∧ pyStrip p1 ≠ naMarker
        · simp [hd]
        · simp [hd]

theorem mem_foldl_resolveDep (deps : List Id) (dm : AList) (keys : List Id)
    (name p c : Id) :
    c ∈ lookupA (deps.foldl (fun dm dep => resolveDep dm keys name dep) dm) p ↔
      c ∈ lookupA dm p ∨ (c = name ∧ ∃ dep ∈ deps, keys.find? (isMatch dep) = some p) := by
  induction deps generalizing dm with
  | nil => simp
  | cons d ds ih =>
    rw [List.foldl_cons, ih]
    rw [resolveDep_eq_find]
    cases hfind : keys.find? (isMatch d) with
    | none =>
      simp only [List.mem_cons]
      constructor
      · rintro (h | ⟨rfl, dep, hdep, hsome⟩)
        · exact Or.inl h
        · exact Or.inr ⟨rfl, dep, Or.inr hdep, hsome⟩
      · rintro (h | ⟨rfl, dep, hdep | hdep, hsome⟩)
        · exact Or.inl h
        · rw [hdep] at hsome
          rw [hsome] at hfind
          exact absurd hfind (by simp)
        · exact Or.inr ⟨rfl, dep, hdep, hsome⟩
    | some e =>
      rw [mem_lookupA_addChild]
      simp only [List.mem_cons]
      constructor
      · rintro ((h | ⟨rfl, rfl⟩) | ⟨rfl, dep, hdep, hsome⟩)
        · exact Or.inl h
        · exact Or.inr ⟨rfl, d, Or.inl rfl, hfind⟩
        · exact Or.inr ⟨rfl, dep, Or.inr hdep, hsome⟩
      · rintro (h | ⟨rfl, dep, hdep | hdep, hsome⟩)
        · exact Or.inl (Or.inl h)
        · rw [hdep] at hsome
          rw [hsome] at hfind
          cases hfind
          exact Or.inl (Or.inr ⟨rfl, rfl⟩)
        · exact Or.inr ⟨rfl, dep, hdep, hsome⟩

theorem mem_parseStep_dm (st : AList × AList) (l : Id) (p c : Id) :
    c ∈ lookupA (parseStep st l).2 p ↔
      c ∈ lookupA st.2 p ∨
        (validLine l ∧ lineName l = c ∧
          ∃ dep ∈ lineDeps l,
            (keysOf (parseStep st l).1).find? (isMatch dep) = some p) := by
  by_cases he : (pyStrip l).isEmpty
  · have hnil : pyStrip l = [] := List.isEmpty_iff.mp he
    have hval : ¬ validLine l := fun hv => hv.1 hnil
    rw [parseStep]
    simp [he, hval]
  · have hne : pyStrip l ≠ [] := fun h => by
      rw [h] at he; exact he rfl
    cases hs : splitOnChar '|' (pyStrip l) with
    | nil =>
      have hval : ¬ validLine l := by
        rintro ⟨-, hlen⟩
        rw [hs] at hlen
        simp at hlen
      rw [parseStep]
      simp [he, hs, hval]
    | cons p0 t =>
      cases t with
      | nil =>
        have hval : ¬ validLine l := by
          rintro ⟨-, hlen⟩
          rw [hs] at hlen
          simp at hlen
        rw [parseStep]
        simp [he, hs, hval]
      | cons p1 rest =>
        have hval : validLine l := ⟨hne, by rw [hs]; simp⟩
        have hname : lineName l = pyStrip p0 := by unfold lineName; rw [hs]
        have hdstr : lineDepsStr l = pyStrip p1 := by unfold lineDepsStr; rw [hs]
        by_cases hd : pyStrip p1 ≠ [] ∧ pyStrip p1 ≠ naMarker
        · have hdeps : lineDeps l = splitDeps (pyStrip p1) := by
            unfold lineDeps; rw [hdstr, if_pos hd]
          have hstep : parseStep st l =
              (upsert (upsert st.1 (pyStrip p0) []) (pyStrip p0) (splitDeps (pyStrip p1)),
                (splitDeps (pyStrip p1)).foldl
                  (fun dm dep =>
                    resolveDep dm
                      (keysOf (upsert (upsert st.1 (pyStrip p0) [])
                        (pyStrip p0) (splitDeps (pyStrip p1))))
                      (pyStrip p0) dep)
                  st.2) := by
            rw [parseStep]
            simp only [he, Bool.false_eq_true, if_false, hs]
            rw [if_pos hd]
          rw [hstep]
          rw [mem_foldl_resolveDep]
          rw [hdeps, hname]
          constructor
          · rintro (h | ⟨rfl, dep, hdep, hsome⟩)
            · exact Or.inl h
            · exact Or.inr ⟨hval, rfl, dep, hdep, hsome⟩
          · rintro (h | ⟨-, rfl, dep, hdep, hsome⟩)
            · exact Or.inl h
            · exact Or.inr ⟨rfl, dep, hdep, hsome⟩
        · have hdeps : lineDeps l = [] := by
            unfold lineDeps; rw [hdstr, if_neg hd]
          rw [parseStep]
          simp [he, hs, hd, hdeps]

theorem specEdgeFrom_nil (apps0 : AList) (c p : Id) : ¬ specEdgeFrom apps0 [] c p := by
  rintro ⟨pre, l, post, heq, -⟩
  exact absurd heq.symm (List.append_ne_nil_of_right_ne_nil pre (by simp))

theorem specEdgeFrom_cons (apps0 : AList) (l : Id) (rest : List Id) (c p : Id) :
    specEdgeFrom apps0 (l :: rest) c p ↔
      (validLine l ∧ lineName l = c ∧
        ∃ dep ∈ lineDeps l, (keysOf (appsStep apps0 l)).find? (isMatch dep) = some p) ∨
      specEdgeFrom (appsStep apps0 l) rest c p := by
  constructor
  · rintro ⟨pre, x, post, heq, hv, hn, dep, hdep, hsome⟩
    cases pre with
    | nil =>
      simp only [List.nil_append] at heq
      cases heq
      left
      refine ⟨hv, hn, dep, hdep, ?_⟩
      simpa [parseApps] using hsome
    | cons q pre2 =>
      rw [List.cons_append] at heq
      injection heq with h1 h2
      subst h1
      subst h2
      right
      refine ⟨pre2, x, post, rfl, hv, hn, dep, hdep, ?_⟩
      have hpa : parseApps apps0 ((l :: pre2) ++ [x]) =
          parseApps (appsStep apps0 l) (pre2 ++ [x]) := by
        simp [parseApps]
      rw [← hpa]
      exact hsome
  · rintro (⟨hv, hn, dep, hdep, hsome⟩ | ⟨pre, x, post, heq, hv, hn, dep, hdep, hsome⟩)
    · refine ⟨[], l, rest, rfl, hv, hn, dep, hdep, ?_⟩
      simpa [parseApps] using hsome
    · refine ⟨l :: pre, x, post, by rw [heq]; rfl, hv, hn, dep, hdep, ?_⟩
      have : parseApps apps0 ((l :: pre) ++ [x]) =
          parseApps (appsStep apps0 l) (pre ++ [x]) := by
        simp [parseApps]
      rw [this]
      exact hsome

theorem mem_foldl_parseStep_dm (lines : List Id) :
    ∀ st : AList × AList, ∀ p c : Id,
      c ∈ lookupA (lines.foldl parseStep st).2 p ↔
        c ∈ lookupA st.2 p ∨ specEdgeFrom st.1 lines c p := by
  induction lines with
  | nil =>
    intro st p c
    simp [specEdgeFrom_nil]
  | cons l rest ih =>
    intro st p c
    rw [List.foldl_cons, ih (parseStep st l) p c, mem_parseStep_dm,
      specEdgeFrom_cons, parseStep_fst]
    exact or_assoc

/-- C2: membership in the children (dependents) map is exactly the
inverse of the implied dependency edges — `c` is in `p`'s children set
if and only if some record with identifier `c` carries a dependency
reference whose first-match resolution, over the identifiers registered
up to and including that record, is `p`. -/
theorem C2_children_inverse (lines : List Id) (p c : Id) :
    c ∈ lookupA (parse_clusterapps lines).2 p ↔ specImpliedEdge lines c p := by
  unfold parse_clusterapps specImpliedEdge
  rw [lookupA_finalizeDM, mem_sortStr, mem_foldl_parseStep_dm lines ([], []) p c]
  simp [lookupA]

/-! ### Parser invariants used by the chain-partition proof -/

theorem upsert_pos {rest : AList} {k0 k : Id} {v0 v : List Id} (h : k0 = k) :
    upsert ((k0, v0) :: rest) k v = (k0, v) :: rest := by
  conv_lhs => rw [upsert]
  rw [if_pos h]

theorem upsert_neg {rest : AList} {k0 k : Id} {v0 v : List Id} (h : ¬ k0 = k) :
    upsert ((k0, v0) :: rest) k v = (k0, v0) :: upsert rest k v := by
  conv_lhs => rw [upsert]
  rw [if_neg h]

theorem mem_keys_upsert {m : AList} {k v x} :
    x ∈ keysOf (upsert m k v) ↔ x ∈ keysOf m ∨ x = k := by
  induction m with
  | nil => simp [upsert, keysOf]
  | cons kv rest ih =>
    rcases kv with ⟨k0, v0⟩
    by_cases h : k0 = k
    · rw [upsert_pos h]
      show x ∈ k0 :: keysOf rest ↔ x ∈ k0 :: keysOf rest ∨ x = k
      subst h
      constructor
      · exact fun h2 => Or.inl h2
      · rintro (h2 | rfl)
        · exact h2
        · exact List.mem_cons_self _ _
    · rw [upsert_neg h]
      show x ∈ k0 :: keysOf (upsert rest k v) ↔ x ∈ k0 :: keysOf rest ∨ x = k
      rw [List.mem_cons, List.mem_cons, ih]
      tauto

theorem nodup_keys_upsert {m : AList} {k v} (h : (keysOf m).Nodup) :
    (keysOf (upsert m k v)).Nodup := by
  induction m with
  | nil => simp [upsert, keysOf]
  | cons kv rest ih =>
    rcases kv with ⟨k0, v0⟩
    have h2 : (k0 :: keysOf rest).Nodup := h
    rcases List.nodup_cons.mp h2 with ⟨hk0, hrest⟩
    by_cases hk : k0 = k
    · rw [upsert_pos hk]
      exact h
    · rw [upsert_neg hk]
      show (k0 :: keysOf (upsert rest k v)).Nodup
      refine List.nodup_cons.mpr ⟨?_, ih hrest⟩
      intro hmem
      rcases mem_keys_upsert.mp hmem with h3 | h3
      · exact hk0 h3
      · exact hk h3

theorem appsStep_of_empty {l : Id} (he : (pyStrip l).isEmpty = true) (apps : AList) :
    appsStep apps l = apps := by
  unfold appsStep parseStep
  simp [he]

theorem appsStep_of_nil {l : Id} (he : (pyStrip l).isEmpty = false)
    (hs : splitOnChar '|' (pyStrip l) = []) (apps : AList) :
    appsStep apps l = apps := by
  unfold appsStep parseStep
  simp only [he, Bool.false_eq_true, if_false, hs]

theorem appsStep_of_one {l : Id} {p0 : List Char} (he : (pyStrip l).isEmpty = false)
    (hs : splitOnChar '|' (pyStrip l) = [p0]) (apps : AList) :
    appsStep apps l = apps := by
  unfold appsStep parseStep
  simp only [he, Bool.false_eq_true, if_false, hs]

theorem appsStep_of_cons2 {l : Id} {p0 p1 : List Char} {rest2 : List (List Char)}
    (he : (pyStrip l).isEmpty = false)
    (hs : splitOnChar '|' (pyStrip l) = p0 :: p1 :: rest2) (apps : AList) :
    appsStep apps l =
      if pyStrip p1 ≠ [] ∧ pyStrip p1 ≠ naMarker then
        upsert (upsert apps (pyStrip p0) []) (pyStrip p0) (splitDeps (pyStrip p1))
      else upsert apps (pyStrip p0) [] := by
  unfold appsStep parseStep
  simp only [he, Bool.false_eq_true, if_false, hs]
  by_cases hd : pyStrip p1 ≠ [] ∧ pyStrip p1 ≠ naMarker
  · simp only [if_pos hd]
  · simp only [if_neg hd]

theorem keys_appsStep_mono {apps : AList} {l x : Id} (h : x ∈ keysOf apps) :
    x ∈ keysOf (appsStep apps l) := by
  cases he : (pyStrip l).isEmpty with
  | true => rw [appsStep_of_empty he]; exact h
  | false =>
    cases hs : splitOnChar '|' (pyStrip l) with
    | nil => rw [appsStep_of_nil he hs]; exact h
    | cons p0 t =>
      cases t with
      | nil => rw [appsStep_of_one he hs]; exact h
      | cons p1 rest2 =>
        rw [appsStep_of_cons2 he hs]
        by_cases hd : pyStrip p1 ≠ [] ∧ pyStrip p1 ≠ naMarker
        · rw [if_pos hd]
          exact mem_keys_upsert.mpr (Or.inl (mem_keys_upsert.mpr (Or.inl h)))
        · rw [if_neg hd]
          exact mem_keys_upsert.mpr (Or.inl h)

theorem lineName_mem_appsStep {apps : AList} {l : Id} (hv : validLine l) :
    lineName l ∈ keysOf (appsStep apps l) := by
  rcases hv with ⟨hne, hlen⟩
  have he : (pyStrip l).isEmpty = false := by
    cases h : pyStrip l with
    | nil => exact absurd h hne
    | cons a b => rfl
  cases hs : splitOnChar '|' (pyStrip l) with
  | nil => rw [hs] at hlen; simp at hlen
  | cons p0 t =>
    cases t with
    | nil => rw [hs] at hlen; simp at hlen
    | cons p1 rest2 =>
      have hname : lineName l = pyStrip p0 := by unfold lineName; rw [hs]
      rw [hname, appsStep_of_cons2 he hs]
      by_cases hd : pyStrip p1 ≠ [] ∧ pyStrip p1 ≠ naMarker
      · rw [if_pos hd]
        exact mem_keys_upsert.mpr (Or.inr rfl)
      · rw [if_neg hd]
        exact mem_keys_upsert.mpr (Or.inr rfl)

theorem nodup_keys_appsStep {apps : AList} {l : Id}
    (h : (keysOf apps).Nodup) : (keysOf (appsStep apps l)).Nodup := by
  cases he : (pyStrip l).isEmpty with
  | true => rw [appsStep_of_empty he]; exact h
  | false =>
    cases hs : splitOnChar '|' (pyStrip l) with
    | nil => rw [appsStep_of_nil he hs]; exact h
    | cons p0 t =>
      cases t with
      | nil => rw [appsStep_of_one he hs]; exact h
      | cons p1 rest2 =>
        rw [appsStep_of_cons2 he hs]
        by_cases hd : pyStrip p1 ≠ [] ∧ pyStrip p1 ≠ naMarker
        · rw [if_pos hd]
          exact nodup_keys_upsert (nodup_keys_upsert h)
        · rw [if_neg hd]
          exact nodup_keys_upsert h

theorem keys_nodup_foldl (lines : List Id) :
    ∀ st : AList × AList, (keysOf st.1).Nodup →
      (keysOf (lines.foldl parseStep st).1).Nodup := by
  induction lines with
  | nil => exact fun st h => h
  | cons l rest ih =>
    intro st h
    rw [List.foldl_cons]
    apply ih
    rw [parseStep_fst]
    exact nodup_keys_appsStep h

theorem parse_keys_nodup (lines : List Id) :
    (keysOf (parse_clusterapps lines).1).Nodup := by
  unfold parse_clusterapps
  exact keys_nodup_foldl lines ([], []) (by simp [keysOf])

theorem dm_inv_foldl (lines : List Id) :
    ∀ st : AList × AList,
      (∀ p c, c ∈ lookupA st.2 p → c ∈ keysOf st.1) →
      ∀ p c, c ∈ lookupA (lines.foldl parseStep st).2 p →
        c ∈ keysOf (lines.foldl parseStep st).1 := by
  induction lines with
  | nil => exact fun st h => h
  | cons l rest ih =>
    intro st h p c hc
    rw [List.foldl_cons] at hc ⊢
    refine ih (parseStep st l) ?_ p c hc
    intro p2 c2 hc2
    rcases (mem_parseStep_dm st l p2 c2).mp hc2 with h2 | ⟨hv, hn, -⟩
    · rw [parseStep_fst]
      exact keys_appsStep_mono (h p2 c2 h2)
    · rw [parseStep_fst, ← hn]
      exact lineName_mem_appsStep hv

theorem parse_dm_values_mem_keys (lines : List Id) :
    ∀ p c, c ∈ lookupA (parse_clusterapps lines).2 p →
      c ∈ keysOf (parse_clusterapps lines).1 := by
  intro p c hc
  unfold parse_clusterapps at hc ⊢
  rw [show ((lines.foldl parseStep ([], [])).1,
      finalizeDM (lines.foldl parseStep ([], [])).2).2 =
      finalizeDM (lines.foldl parseStep ([], [])).2 from rfl,
    lookupA_finalizeDM, mem_sortStr] at hc
  exact dm_inv_foldl lines ([], [])
    (by intro p2 c2 hc2; simp [lookupA] at hc2) p c hc

theorem find_roots_sub {apps : AList} {x : Id} (h : x ∈ find_roots apps) :
    x ∈ keysOf apps := by
  unfold find_roots at h
  rw [mem_sortStr] at h
  rcases List.mem_map.mp h with ⟨kv, hkv, rfl⟩
  exact List.mem_map.mpr ⟨kv, List.mem_of_mem_filter hkv, rfl⟩

/-! ### The BFS loop: fuel sufficiency and chain properties -/

theorem enqueueChildren_nodup (P : List Id) (ch : List Id) :
    ∀ q : List Id, q.Nodup → (enqueueChildren P q ch).Nodup := by
  induction ch with
  | nil => exact fun q h => h
  | cons c cs ih =>
    intro q hq
    unfold enqueueChildren
    rw [List.foldl_cons]
    by_cases h : c ∈ P ∨ c ∈ q
    · rw [if_pos h]
      exact ih q hq
    · rw [if_neg h]
      refine ih _ (List.nodup_append.mpr ⟨hq, List.nodup_singleton c, ?_⟩)
      intro x hx hxc
      rw [List.mem_singleton] at hxc
      subst hxc
      exact h (Or.inr hx)

theorem mem_enqueueChildren {P ch : List Id} :
    ∀ {q : List Id} {x : Id}, x ∈ enqueueChildren P q ch → x ∈ q ∨ x ∈ ch := by
  induction ch with
  | nil => exact fun h => Or.inl h
  | cons c cs ih =>
    intro q x hx
    unfold enqueueChildren at hx
    rw [List.foldl_cons] at hx
    by_cases h : c ∈ P ∨ c ∈ q
    · rw [if_pos h] at hx
      rcases ih hx with h2 | h2
      · exact Or.inl h2
      · exact Or.inr (List.mem_cons_of_mem c h2)
    · rw [if_neg h] at hx
      rcases ih hx with h2 | h2
      · rcases List.mem_append.mp h2 with h3 | h3
        · exact Or.inl h3
        · rw [List.mem_singleton] at h3
          exact Or.inr (by rw [h3]; exact List.mem_cons_self c cs)
      · exact Or.inr (List.mem_cons_of_mem c h2)

theorem filter_cons_processed (processed : List Id) (n : Id) (hnp : n ∉ processed) :
    ∀ keys : List Id, keys.Nodup → n ∈ keys →
      (keys.filter (fun k => decide (k ∉ n :: processed))).length + 1 =
        (keys.filter (fun k => decide (k ∉ processed))).length := by
  intro keys
  induction keys with
  | nil => intro _ hn; simp at hn
  | cons x rest ih =>
    intro hk hn
    rcases List.nodup_cons.mp hk with ⟨hx, hrest⟩
    have hagreeRest : ∀ k ∈ rest, k ≠ n →
        (decide (k ∉ n :: processed)) = (decide (k ∉ processed)) := by
      intro k _ hkn
      simp [List.mem_cons, hkn]
    rcases List.mem_cons.mp hn with h1 | hn2
    · subst h1
      rw [List.filter_cons, List.filter_cons]
      have hno : (decide (n ∉ n :: processed)) = false := by simp
      have hyes : (decide (n ∉ processed)) = true := by simpa using hnp
      rw [hno, hyes, if_neg (by simp), if_pos rfl]
      have hcong : rest.filter (fun k => decide (k ∉ n :: processed)) =
          rest.filter (fun k => decide (k ∉ processed)) := by
        apply List.filter_congr
        intro k hk2
        exact hagreeRest k hk2 (fun h2 => hx (h2 ▸ hk2))
      rw [hcong, List.length_cons]
    · have hxn : x ≠ n := fun h2 => hx (h2 ▸ hn2)
      have hagree : (decide (x ∉ n :: processed)) = (decide (x ∉ processed)) := by
        simp [List.mem_cons, hxn]
      rw [List.filter_cons, List.filter_cons, hagree]
      by_cases hxp : (decide (x ∉ processed)) = true
      · rw [if_pos hxp, if_pos hxp, List.length_cons, List.length_cons]
        rw [← ih hrest hn2]
      · rw [if_neg hxp, if_neg hxp]
        exact ih hrest hn2

theorem bfsAux_spec (dm : AList) (keys : List Id)
    (Hdep : ∀ p c, c ∈ lookupA dm p → c ∈ keys) (Hkeys : keys.Nodup) :
    ∀ fuel : Nat, ∀ queue processed chain : List Id,
      queue.Nodup → (∀ x ∈ queue, x ∈ keys) →
      (keys.filter (fun k => decide (k ∉ processed))).length * (keys.length + 1) +
          queue.length + 1 ≤ fuel →
      ∃ δ : List Id,
        (bfsAux dm fuel queue processed chain).1 = chain ++ δ ∧
        (bfsAux dm fuel queue processed chain).2 = δ.reverse ++ processed ∧
        δ.Nodup ∧ ∀ x ∈ δ, x ∈ keys ∧ x ∉ processed := by
  intro fuel
  induction fuel with
  | zero =>
    intro queue processed chain _ _ hfuel
    omega
  | succ fuel ih =>
    intro queue processed chain hq hsub hfuel
    cases queue with
    | nil =>
      refine ⟨[], by simp [bfsAux], by simp [bfsAux], List.nodup_nil, by simp⟩
    | cons n rest =>
      rcases List.nodup_cons.mp hq with ⟨hnrest, hrest⟩
      by_cases hn : n ∈ processed
      · have hstep : bfsAux dm (fuel + 1) (n :: rest) processed chain =
            bfsAux dm fuel rest processed chain := by
          conv_lhs => rw [bfsAux]
          rw [if_pos hn]
        rw [hstep]
        apply ih rest processed chain hrest
          (fun x hx => hsub x (List.mem_cons_of_mem n hx))
        rw [List.length_cons] at hfuel
        omega
      · have hnk : n ∈ keys := hsub n (List.mem_cons_self n rest)
        have hstep : bfsAux dm (fuel + 1) (n :: rest) processed chain =
            bfsAux dm fuel (enqueueChildren (n :: processed) rest (lookupA dm n))
              (n :: processed) (chain ++ [n]) := by
          conv_lhs => rw [bfsAux]
          rw [if_neg hn]
        rw [hstep]
        have hQnodup : (enqueueChildren (n :: processed) rest (lookupA dm n)).Nodup :=
          enqueueChildren_nodup _ _ rest hrest
        have hQsub : ∀ x ∈ enqueueChildren (n :: processed) rest (lookupA dm n),
            x ∈ keys := by
          intro x hx
          rcases mem_enqueueChildren hx with h2 | h2
          · exact hsub x (List.mem_cons_of_mem n h2)
          · exact Hdep n x h2
        have hQlen : (enqueueChildren (n :: processed) rest (lookupA dm n)).length ≤
            keys.length :=
          (hQnodup.subperm (fun {x} hx => hQsub x hx)).length_le
        have hcount : (keys.filter (fun k => decide (k ∉ n :: processed))).length + 1 =
            (keys.filter (fun k => decide (k ∉ processed))).length :=
          filter_cons_processed processed n hn keys Hkeys hnk
        have hfuel2 : (keys.filter (fun k => decide (k ∉ n :: processed))).length *
              (keys.length + 1) +
            (enqueueChildren (n :: processed) rest (lookupA dm n)).length + 1 ≤ fuel := by
          have hum : (keys.filter (fun k => decide (k ∉ processed))).length *
                (keys.length + 1) =
              (keys.filter (fun k => decide (k ∉ n :: processed))).length *
                  (keys.length + 1) +
                (keys.length + 1) := by
            rw [← hcount, Nat.succ_mul]
          rw [hum, List.length_cons] at hfuel
          set A := (keys.filter (fun k => decide (k ∉ n :: processed))).length *
            (keys.length + 1) with hA
          omega
        obtain ⟨δ2, hc1, hc2, hd2, hfacts⟩ :=
          ih (enqueueChildren (n :: processed) rest (lookupA dm n)) (n :: processed)
            (chain ++ [n]) hQnodup hQsub hfuel2
        refine ⟨n :: δ2, ?_, ?_, ?_, ?_⟩
        · rw [hc1, List.append_assoc, List.singleton_append]
        · rw [hc2, List.reverse_cons, List.append_assoc, List.singleton_append]
        · refine List.nodup_cons.mpr ⟨?_, hd2⟩
          intro hmem
          exact (hfacts n hmem).2 (List.mem_cons_self n processed)
        · intro x hx
          rcases List.mem_cons.mp hx with rfl | hx2
          · exact ⟨hnk, hn⟩
          · exact ⟨(hfacts x hx2).1,
              fun hp => (hfacts x hx2).2 (List.mem_cons_of_mem n hp)⟩

theorem chainsOf_fold_spec (apps dm : AList)
    (Hdep : ∀ p c, c ∈ lookupA dm p → c ∈ keysOf apps)
    (Hkeys : (keysOf apps).Nodup) :
    ∀ roots : List Id, ∀ acc : List (List Id), ∀ processed : List Id,
      (∀ r ∈ roots, r ∈ keysOf apps) →
      ∃ newcs : List (List Id),
        (roots.foldl (fun a root =>
            (a.1 ++ [(bfsAux dm (bfsFuel apps) [root] a.2 []).1],
              (bfsAux dm (bfsFuel apps) [root] a.2 []).2)) (acc, processed)).1 =
          acc ++ newcs ∧
        (∀ x, x ∈ (roots.foldl (fun a root =>
            (a.1 ++ [(bfsAux dm (bfsFuel apps) [root] a.2 []).1],
              (bfsAux dm (bfsFuel apps) [root] a.2 []).2)) (acc, processed)).2 ↔
          x ∈ newcs.flatten ∨ x ∈ processed) ∧
        newcs.flatten.Nodup ∧
        (∀ x ∈ newcs.flatten, x ∈ keysOf apps ∧ x ∉ processed) := by
  intro roots
  induction roots with
  | nil =>
    intro acc processed _
    exact ⟨[], by simp, by simp, by simp, by simp⟩
  | cons root rs ih =>
    intro acc processed hroots
    obtain ⟨δ, hb1, hb2, hbn, hbf⟩ :=
      bfsAux_spec dm (keysOf apps) Hdep Hkeys (bfsFuel apps) [root] processed []
        (List.nodup_singleton root)
        (by
          intro x hx
          rw [List.mem_singleton] at hx
          rw [hx]
          exact hroots root (List.mem_cons_self _ _))
        (by
          have hle : ((keysOf apps).filter (fun k => decide (k ∉ processed))).length ≤
              (keysOf apps).length := List.length_filter_le _ _
          have hkl : (keysOf apps).length = apps.length := by simp [keysOf]
          have hmul : ((keysOf apps).filter (fun k => decide (k ∉ processed))).length *
                ((keysOf apps).length + 1) ≤
              (keysOf apps).length * ((keysOf apps).length + 1) :=
            Nat.mul_le_mul_right _ hle
          rw [hkl] at hmul
          unfold bfsFuel
          rw [List.length_singleton, hkl]
          omega)
    have hpair : (((acc, processed) : List (List Id) × List Id).1 ++
          [(bfsAux dm (bfsFuel apps) [root] ((acc, processed) :
            List (List Id) × List Id).2 []).1],
        (bfsAux dm (bfsFuel apps) [root] ((acc, processed) :
          List (List Id) × List Id).2 []).2) =
        (acc ++ [δ], δ.reverse ++ processed) := by
      show (acc ++ [(bfsAux dm (bfsFuel apps) [root] processed []).1],
        (bfsAux dm (bfsFuel apps) [root] processed []).2) = _
      rw [hb1, hb2]
      simp
    rw [List.foldl_cons, hpair]
    obtain ⟨newcs2, h1, h2, h3, h4⟩ :=
      ih (acc ++ [δ]) (δ.reverse ++ processed)
        (fun r hr => hroots r (List.mem_cons_of_mem root hr))
    refine ⟨δ :: newcs2, ?_, ?_, ?_, ?_⟩
    · rw [h1, List.append_assoc, List.singleton_append]
    · intro x
      rw [h2 x]
      simp only [List.flatten_cons, List.mem_append, List.mem_reverse]
      tauto
    · rw [List.flatten_cons]
      refine List.nodup_append.mpr ⟨hbn, h3, ?_⟩
      intro x hx hx2
      have := (h4 x hx2).2
      rw [List.mem_append, List.mem_reverse] at this
      exact this (Or.inl hx)
    · intro x hx
      rw [List.flatten_cons, List.mem_append] at hx
      rcases hx with hx | hx
      · exact hbf x hx
      · have h5 := h4 x hx
        refine ⟨h5.1, fun hp => ?_⟩
        have := h5.2
        rw [List.mem_append] at this
        exact this (Or.inr hp)

/-- C1: the chains emitted by the traversal, together with the orphan
remainder, contain each registered identifier exactly once — their
concatenation has no duplicates and its members are exactly the keys of
the parsed graph. -/
theorem C1_chains_partition (lines : List Id) :
    ((chainsOf (parse_clusterapps lines).1 (parse_clusterapps lines).2).1.flatten ++
        remainderOf (parse_clusterapps lines).1
          (chainsOf (parse_clusterapps lines).1 (parse_clusterapps lines).2).2).Nodup ∧
    ∀ x : Id,
      (x ∈ (chainsOf (parse_clusterapps lines).1 (parse_clusterapps lines).2).1.flatten ++
          remainderOf (parse_clusterapps lines).1
            (chainsOf (parse_clusterapps lines).1 (parse_clusterapps lines).2).2 ↔
        x ∈ keysOf (parse_clusterapps lines).1) := by
  obtain ⟨newcs, h1, h2, h3, h4⟩ :=
    chainsOf_fold_spec (parse_clusterapps lines).1 (parse_clusterapps lines).2
      (parse_dm_values_mem_keys lines) (parse_keys_nodup lines)
      (find_roots (parse_clusterapps lines).1) [] []
      (fun r hr => find_roots_sub hr)
  have e1 : (chainsOf (parse_clusterapps lines).1 (parse_clusterapps lines).2).1 =
      newcs := by
    rw [show (chainsOf (parse_clusterapps lines).1 (parse_clusterapps lines).2).1 =
        ((find_roots (parse_clusterapps lines).1).foldl (fun a root =>
          (a.1 ++ [(bfsAux (parse_clusterapps lines).2
              (bfsFuel (parse_clusterapps lines).1) [root] a.2 []).1],
            (bfsAux (parse_clusterapps lines).2
              (bfsFuel (parse_clusterapps lines).1) [root] a.2 []).2))
          ([], [])).1 from rfl, h1]
    simp
  have e2 : ∀ x, x ∈ (chainsOf (parse_clusterapps lines).1
      (parse_clusterapps lines).2).2 ↔ x ∈ newcs.flatten := by
    intro x
    rw [show (chainsOf (parse_clusterapps lines).1 (parse_clusterapps lines).2).2 =
        ((find_roots (parse_clusterapps lines).1).foldl (fun a root =>
          (a.1 ++ [(bfsAux (parse_clusterapps lines).2
              (bfsFuel (parse_clusterapps lines).1) [root] a.2 []).1],
            (bfsAux (parse_clusterapps lines).2
              (bfsFuel (parse_clusterapps lines).1) [root] a.2 []).2))
          ([], [])).2 from rfl, h2 x]
    simp
  have hremmem : ∀ x, x ∈ remainderOf (parse_clusterapps lines).1
      (chainsOf (parse_clusterapps lines).1 (parse_clusterapps lines).2).2 ↔
      x ∈ keysOf (parse_clusterapps lines).1 ∧ x ∉ newcs.flatten := by
    intro x
    unfold remainderOf
    rw [mem_sortStr, List.mem_filter]
    constructor
    · rintro ⟨hk, hd⟩
      rw [decide_eq_true_iff] at hd
      exact ⟨hk, fun hf => hd ((e2 x).mpr hf)⟩
    · rintro ⟨hk, hf⟩
      refine ⟨hk, ?_⟩
      rw [decide_eq_true_iff]
      exact fun hp => hf ((e2 x).mp hp)
  have hremnodup : (remainderOf (parse_clusterapps lines).1
      (chainsOf (parse_clusterapps lines).1 (parse_clusterapps lines).2).2).Nodup := by
    unfold remainderOf
    exact nodup_sortStr ((parse_keys_nodup lines).filter _)
  constructor
  · rw [e1]
    refine List.nodup_append.mpr ⟨h3, hremnodup, ?_⟩
    intro x hx hx2
    exact ((hremmem x).mp hx2).2 hx
  · intro x
    rw [List.mem_append, e1, hremmem x]
    constructor
    · rintro (hx | ⟨hk, -⟩)
      · exact (h4 x hx).1
      · exact hk
    · intro hk
      by_cases hf : x ∈ newcs.flatten
      · exact Or.inl hf
      · exact Or.inr ⟨hk, hf⟩

/-- C5: parsing the records `a|N/A`, `b|a`, `c|a,b` yields the single
root `a`, children sets `a ↦ set b c`, `b ↦ set c`, `c ↦ empty`, and
chain traversal yields the single breadth-first chain `a, b, c` with an
empty remainder. -/
theorem C5_example_chain :
    find_roots (parse_clusterapps [toL "a|N/A", toL "b|a", toL "c|a,b"]).1 = [toL "a"] ∧
    lookupA (parse_clusterapps [toL "a|N/A", toL "b|a", toL "c|a,b"]).2 (toL "a") =
      [toL "b", toL "c"] ∧
    lookupA (parse_clusterapps [toL "a|N/A", toL "b|a", toL "c|a,b"]).2 (toL "b") =
      [toL "c"] ∧
    lookupA (parse_clusterapps [toL "a|N/A", toL "b|a", toL "c|a,b"]).2 (toL "c") = [] ∧
    (chainsOf (parse_clusterapps [toL "a|N/A", toL "b|a", toL "c|a,b"]).1
        (parse_clusterapps [toL "a|N/A", toL "b|a", toL "c|a,b"]).2).1 =
      [[toL "a", toL "b", toL "c"]] ∧
    remainderOf (parse_clusterapps [toL "a|N/A", toL "b|a", toL "c|a,b"]).1
        (chainsOf (parse_clusterapps [toL "a|N/A", toL "b|a", toL "c|a,b"]).1
          (parse_clusterapps [toL "a|N/A", toL "b|a", toL "c|a,b"]).2).2 = [] := by
  decide

/-- C6: the single record `x|nonexistent-app` stores the unresolvable
reference as the parent list of `x`, forms no child edge, and the root
finder returns the empty list; every component returns a well-defined
value. -/
theorem C6_unresolvable :
    (parse_clusterapps [toL "x|nonexistent-app"]).1 =
      [(toL "x", [toL "nonexistent-app"])] ∧
    (parse_clusterapps [toL "x|nonexistent-app"]).2 = [] ∧
    find_roots (parse_clusterapps [toL "x|nonexistent-app"]).1 = [] := by
  decide

/-- C10: a record whose dependency reference equals its own base name
produces a self-loop: for the single record `foo-1.2.3|foo`, the
identifier `foo-1.2.3` is a member of its own children set. -/
theorem C10_self_loop :
    toL "foo-1.2.3" ∈
      lookupA (parse_clusterapps [toL "foo-1.2.3|foo"]).2 (toL "foo-1.2.3") := by
  decide

/-- C4: the name normalizer removes a dash-digits-dot-digits-dot-digits
suffix together with everything after it; it is the identity when no
such pattern occurs anywhere in the identifier; when several positions
match, the removal point is the leftmost match; and
`normalize("cert-manager-1.14.2") = "cert-manager"`,
`normalize("cert-manager") = "cert-manager"`. -/
theorem C4_base_name :
    (∀ s : Id, versionAt s = true ↔ specVersionAt s) ∧
    (∀ s : Id, (∀ i, ¬ specVersionAt (s.drop i)) → get_base_name s = s) ∧
    (∀ s : Id, ∀ i, specVersionAt (s.drop i) →
      (∀ j, j < i → ¬ specVersionAt (s.drop j)) → get_base_name s = s.take i) ∧
    get_base_name (toL "cert-manager-1.14.2") = toL "cert-manager" ∧
    get_base_name (toL "cert-manager") = toL "cert-manager" := by
  refine ⟨versionAt_iff, ?_, ?_, by decide, by decide⟩
  · intro s
    induction s with
    | nil => intro _; rfl
    | cons c rest ih =>
      intro h
      have h0 : ¬ versionAt (c :: rest) = true := fun hv => h 0 ((versionAt_iff _).mp hv)
      rw [get_base_name, if_neg h0, ih (fun i => by simpa using h (i + 1))]
  · intro s
    induction s with
    | nil =>
      intro i hi _
      rw [List.drop_nil] at hi
      exact absurd hi specVersionAt_not_nil
    | cons c rest ih =>
      intro i hi hj
      cases i with
      | zero =>
        have hv : versionAt (c :: rest) = true := (versionAt_iff _).mpr hi
        rw [get_base_name, if_pos hv]
        simp
      | succ i2 =>
        have h0 : ¬ versionAt (c :: rest) = true :=
          fun hv => hj 0 (Nat.succ_pos i2) ((versionAt_iff _).mp hv)
        rw [get_base_name, if_neg h0,
          ih i2 (by simpa using hi)
            (fun j hjlt => by simpa using hj (j + 1) (Nat.succ_lt_succ hjlt))]
        simp

/-- Witness for C4_base_name: with several dash-version substrings the
removal point is the leftmost one. -/
theorem C4_base_name_witness :
    get_base_name (toL "foo-1.2.3-bar-4.5.6") = toL "foo" := by
  have h3 : specVersionAt ((toL "foo-1.2.3-bar-4.5.6").drop 3) :=
    (C4_base_name.1 _).mp (by decide)
  have hlt : ∀ j, j < 3 → ¬ specVersionAt ((toL "foo-1.2.3-bar-4.5.6").drop j) := by
    intro j hj hs
    have hv := (C4_base_name.1 _).mpr hs
    interval_cases j
    · exact absurd hv (by decide)
    · exact absurd hv (by decide)
    · exact absurd hv (by decide)
  rw [C4_base_name.2.2.1 (toL "foo-1.2.3-bar-4.5.6") 3 h3 hlt]
  decide

/-- C3: resolving one dependency reference scans the registered
identifiers in registration order and stops at the first match (base
name or raw name equality): the current identifier is added only to
that candidate's children set, every other matching candidate's set is
untouched, and a reference with no match changes nothing. -/
theorem C3_first_match (dm : AList) (keys : List Id) (name dep : Id) :
    (keys.find? (isMatch dep) = none → resolveDep dm keys name dep = dm) ∧
    (∀ e, keys.find? (isMatch dep) = some e →
      isMatch dep e = true ∧
      (∃ k1 k2, keys = k1 ++ e :: k2 ∧ ∀ x ∈ k1, isMatch dep x = false) ∧
      resolveDep dm keys name dep = addChild dm e name ∧
      name ∈ lookupA (resolveDep dm keys name dep) e ∧
      (∀ q, q ∈ keys → isMatch dep q = true → q ≠ e →
        lookupA (resolveDep dm keys name dep) q = lookupA dm q)) := by
  constructor
  · intro h
    rw [resolveDep_eq_find, h]
  · intro e he
    rcases find?_eq_some_split he with ⟨hmatch, k1, k2, hsplit, hfirst⟩
    have heq : resolveDep dm keys name dep = addChild dm e name := by
      rw [resolveDep_eq_find, he]
    refine ⟨hmatch, ⟨k1, k2, hsplit, hfirst⟩, heq, ?_, ?_⟩
    · rw [heq]
      exact mem_lookupA_addChild.mpr (Or.inr ⟨rfl, rfl⟩)
    · intro q _ _ hqe
      rw [heq, lookupA_addChild, if_neg (fun h2 => hqe h2.symm)]

/-- Witness for C3_first_match: with the two registered identifiers
`x-1.0.0` and `x`, both matching the reference `x`, only the first one
in registration order receives the edge. -/
theorem C3_first_match_witness :
    resolveDep [] [toL "x-1.0.0", toL "x"] (toL "c") (toL "x") =
      addChild [] (toL "x-1.0.0") (toL "c") ∧
    lookupA (resolveDep [] [toL "x-1.0.0", toL "x"] (toL "c") (toL "x")) (toL "x") = [] := by
  have h := (C3_first_match [] [toL "x-1.0.0", toL "x"] (toL "c") (toL "x")).2
    (toL "x-1.0.0") (by decide)
  refine ⟨h.2.2.1, ?_⟩
  rw [h.2.2.2.2 (toL "x") (by decide) (by decide) (by decide)]
  rfl

/-- C7 counterexample: a record with no dependency-text field (no `|`)
is not registered at all — the graph parsed from the single record `x`
has no keys, contradicting the claim that `x` is registered with an
empty parent list. -/
theorem C7_counterexample :
    keysOf (parse_clusterapps [toL "x"]).1 = [] := by decide

/-- C7 (amended): a record with fewer than two `|`-separated fields is
skipped entirely — parsing is unchanged by its presence, so its
identifier is not registered. -/
theorem C7_short_record_skipped (pre post : List Id) (line : Id)
    (h : (splitOnChar '|' (pyStrip line)).length < 2) :
    parse_clusterapps (pre ++ line :: post) = parse_clusterapps (pre ++ post) := by
  unfold parse_clusterapps
  rw [List.foldl_append, List.foldl_append, List.foldl_cons, parseStep_skip h]

/-- Witness for C7_short_record_skipped at a concrete short record. -/
theorem C7_short_record_skipped_witness :
    parse_clusterapps [toL "a|N/A", toL "x", toL "b|a"] =
      parse_clusterapps [toL "a|N/A", toL "b|a"] :=
  C7_short_record_skipped [toL "a|N/A"] [toL "b|a"] (toL "x") (by decide)

theorem rootLine_ne_plainLine (display : Id) (w : Nat) :
    rootLine display w ≠ plainLine display w := by
  intro heq
  unfold rootLine plainLine at heq
  simp only [List.append_assoc] at heq
  have h1 := List.append_cancel_left heq
  have h2 := List.append_cancel_left h1
  have h3 : '[' ∈ toL " [ROOT]" ++ (List.replicate (w - display.length - 8) ' ' ++ toL "│") := by
    apply List.mem_append_left
    decide
  rw [h2] at h3
  rcases List.mem_append.mp h3 with h4 | h4
  · have := List.eq_of_mem_replicate h4
    simp at this
  · simp [toL] at h4

/-- C9: every rendered block has top and bottom borders of length
exactly `max 50 (length of the truncated display name + 4)`; the box
content line is the `[ROOT]`-annotated line exactly when the parent
list is empty (the two line formats are never equal); and when the
children list is empty the block ends with the fixed
`(no dependents)` line. -/
theorem C9_block_render (apps dm : AList) (name : Id) :
    (borderTop (max ((name.take 60).length + 4) 50)).length =
      max ((name.take 60).length + 4) 50 ∧
    (borderBot (max ((name.take 60).length + 4) 50)).length =
      max ((name.take 60).length + 4) 50 ∧
    (lookupA apps name = [] →
      (draw_app_block apps dm name).take 3 =
        [borderTop (max ((name.take 60).length + 4) 50),
          rootLine (name.take 60) (max ((name.take 60).length + 4) 50),
          borderBot (max ((name.take 60).length + 4) 50)]) ∧
    (lookupA apps name ≠ [] →
      ((draw_app_block apps dm name).drop 3).take 3 =
        [borderTop (max ((name.take 60).length + 4) 50),
          plainLine (name.take 60) (max ((name.take 60).length + 4) 50),
          borderBot (max ((name.take 60).length + 4) 50)]) ∧
    rootLine (name.take 60) (max ((name.take 60).length + 4) 50) ≠
      plainLine (name.take 60) (max ((name.take 60).length + 4) 50) ∧
    (lookupA dm name = [] →
      (draw_app_block apps dm name).getLast? = some noDependentsLine) := by
  refine ⟨?_, ?_, ?_, ?_, rootLine_ne_plainLine _ _, ?_⟩
  · simp only [borderTop, toL, List.length_append, List.length_replicate]
    have : (String.toList "┌─").length = 2 := by decide
    rw [this]
    have : (String.toList "─┐").length = 2 := by decide
    rw [this]
    omega
  · simp only [borderBot, toL, List.length_append, List.length_replicate]
    have : (String.toList "└─").length = 2 := by decide
    rw [this]
    have : (String.toList "─┘").length = 2 := by decide
    rw [this]
    omega
  · intro hd
    simp [draw_app_block, hd]
  · intro hd
    have hne : (lookupA apps name).isEmpty = false := by
      cases h : lookupA apps name with
      | nil => exact absurd h hd
      | cons x xs => rfl
    simp [draw_app_block, hne]
  · intro hc
    unfold draw_app_block
    simp only [hc, List.isEmpty_nil, if_true]
    exact List.getLast?_concat _

/-- Witness for C9_block_render at a concrete root app with no
children. -/
theorem C9_block_render_witness :
    (draw_app_block [(toL "r", [])] [] (toL "r")).take 3 =
      [borderTop 50, rootLine (toL "r") 50, borderBot 50] ∧
    (draw_app_block [(toL "r", [])] [] (toL "r")).getLast? = some noDependentsLine := by
  have h := C9_block_render [(toL "r", [])] [] (toL "r")
  constructor
  · have := h.2.2.1 (by decide)
    simpa using this
  · exact h.2.2.2.2.2 (by decide)

/-- C8: the diagram assembler is a pure function of the input records —
running it twice produces identical output — and every sorted
collection it renders (children sets, root list, orphan remainder) is
ascending in the code-point order. -/
theorem C8_deterministic (lines : List Id) :
    generateDiagram lines = generateDiagram lines ∧
    (∀ p, (lookupA (parse_clusterapps lines).2 p).Pairwise strLe) ∧
    (find_roots (parse_clusterapps lines).1).Pairwise strLe ∧
    (∀ processed, (remainderOf (parse_clusterapps lines).1 processed).Pairwise strLe) := by
  refine ⟨rfl, ?_, ?_, ?_⟩
  · intro p
    show (lookupA (finalizeDM ((lines.foldl parseStep ([], [])).2)) p).Pairwise strLe
    rw [lookupA_finalizeDM]
    exact sortStr_pairwise _
  · exact sortStr_pairwise _
  · intro processed
    exact sortStr_pairwise _

end BD
